import Mathlib

/-!
# Verification of the GLR extraction pipeline (`src/GLR_Pipeline/app.py`)

This file gives a shallow embedding of the pure logic of the pipeline:

* JSON values returned by `json.loads` are modelled by the inductive `Json`
  (JSON numbers are modelled by integers; no claim touches fractional values).
* Python `dict`s are modelled by insertion-ordered association lists:
  assignment updates the first matching key in place or appends a fresh key
  at the end, exactly like CPython dicts preserve insertion order.
* External effects (HTTP calls via `requests.post`, `json.loads` failures,
  `re.search` results, `datetime.now()`) are passed in as explicit arguments;
  a raised-and-not-caught Python exception is modelled by an `Option` result
  being `none`.
* `.docx` documents handled through `python-docx` are modelled by the
  structure `Docx` (body paragraphs, tables as rows of cells of paragraphs,
  and per-section header/footer paragraphs); a paragraph's `.text` is a
  `List Char`.
-/

set_option autoImplicit false

namespace GLR

/-- JSON values as produced by `json.loads`.  Numbers are modelled by `Int`
(the program never computes with fractional JSON numbers; the float literal
`0.0` used as a default confidence is modelled by `Json.num 0`). -/
inductive Json where
  | null
  | bool (b : Bool)
  | num (n : Int)
  | str (s : String)
  | arr (elems : List Json)
  | obj (entries : List (String × Json))

/-- A Python `dict` holding JSON values, as an insertion-ordered
association list. -/
abbrev JObj := List (String × Json)

/-- First-match association-list lookup: Python `d.get(k)` / `d[k]`
(presence of the key). -/
def alookup {α : Type} : List (String × α) → String → Option α
  | [], _ => none
  | (k, v) :: rest, key => if k = key then some v else alookup rest key

/-- Python `d[k] = v`: update the first matching key in place, else append
the new key at the end (CPython insertion-order semantics). -/
def aset {α : Type} : List (String × α) → String → α → List (String × α)
  | [], key, v => [(key, v)]
  | (k, w) :: rest, key, v =>
    if k = key then (k, v) :: rest else (k, w) :: aset rest key v

/-- Python `d.setdefault(k, v)`: insert `v` at the end when `k` is absent,
otherwise leave the dict unchanged. -/
def asetdefault {α : Type} (m : List (String × α)) (key : String) (v : α) :
    List (String × α) :=
  if (alookup m key).isSome then m else m ++ [(key, v)]

/-- Python truthiness of a JSON value (`bool(v)`): `None`, `False`, `0`,
`""`, `[]` and the empty dict are falsy. -/
def Json.truthy : Json → Bool
  | .null => false
  | .bool b => b
  | .num n => n != 0
  | .str s => !s.data.isEmpty
  | .arr elems => !elems.isEmpty
  | .obj entries => !entries.isEmpty

/-- Python `v == ""` for a JSON value: true exactly for the empty string. -/
def Json.isEmptyStr : Json → Bool
  | .str s => s.data.isEmpty
  | _ => false

/-- Whether a JSON value is a (Python) string. -/
def Json.isString : Json → Bool
  | .str _ => true
  | _ => false

/-- Keep the first occurrence of each element (insertion order of a Python
dict built by comprehension or repeated `setdefault`). -/
def dedupFirst (l : List String) : List String :=
  l.foldl (fun acc x => if acc.contains x then acc else acc ++ [x]) []

/-! ## `fallback_structured` (app.py lines 233-260)

The four `re.search` calls over `pdf_text` and the `datetime.now()` call are
external-library effects; their results enter the model as explicit
arguments.  `RegexResults` carries, for each pattern, the captured groups of
the leftmost match when one exists:

* `insuredName`: group 2 of the insured-name pattern
  (label `Insured`/`Insured Name`/`Policyholder`, then up to 20 non-newline
  characters, then a capitalised run of 3 to 81 name characters);
* `address`: groups 1-4 (street, city, two-letter state, 5-digit zip) of the
  address pattern;
* `dateInspected`: group 1 of the date pattern (M/D/Y with `/` or `-`);
* `mortgagee`: group 2 of the mortgagee pattern
  (label `Mortgagee`/`Lender`/`Bank`, then up to 20 characters, then the
  rest of the line).

On the empty `pdf_text` every pattern fails to match (each one requires at
least one character), so all four fields are `none`. -/
structure RegexResults where
  insuredName : Option String
  address : Option (String × String × String × String)
  dateInspected : Option String
  mortgagee : Option String

/-- Model of `fallback_structured(pdf_text, placeholders)`: a dict mapping every
placeholder to `""`, with a handful of fixed keys overwritten from the regex
matches.  `today` is `datetime.now().strftime` of the current date. -/
def fallback_structured (placeholders : List String) (rx : RegexResults)
    (today : String) : List (String × String) :=
  let data := (dedupFirst placeholders).map (fun k => (k, ""))
  let data := match rx.insuredName with
    | some g2 => aset data "INSURED_NAME" g2.trim
    | none => data
  let data := match rx.address with
    | some (street, city, state, zip) =>
      aset (aset (aset (aset data "INSURED_H_STREET" street.trim)
        "INSURED_H_CITY" city.trim) "INSURED_H_STATE" state.trim)
        "INSURED_H_ZIP" zip.trim
    | none => data
  let data := match rx.dateInspected with
    | some g1 => aset data "DATE_INSPECTED" g1
    | none => data
  let data := match rx.mortgagee with
    | some g2 => aset data "MORTGAGEE" g2.trim
    | none => data
  if (alookup data "DATE_RECEIVED").isSome then
    aset data "DATE_RECEIVED" today
  else data

/-! ## Extraction-mode post-processing (app.py lines 94-228)

Each `llm_*` mode builds a prompt, performs one (or, for voting, up to
three) HTTP calls, extracts the first JSON block of the reply and runs it
through `json.loads`.  The HTTP call and `json.loads` are external effects,
so each mode is modelled as a function of the already-parsed reply
(`parsed : Json`).  A result of `none` models an uncaught Python exception
(an `AttributeError` from calling a dict method on a non-dict value). -/

/-- Model of `llm_high_accuracy` after `json.loads`: read `parsed["mapping"]` and
`parsed["confidences"]` (defaulting to empty dicts), then `setdefault` every
placeholder to `""` resp. `0.0`.  Crashes (`none`) when `parsed` or either
member is not a dict. -/
def llm_high_accuracy (placeholders : List String) (parsed : Json) :
    Option (JObj × JObj) :=
  match parsed with
  | Json.obj kvs =>
    match (alookup kvs "mapping").getD (Json.obj []),
        (alookup kvs "confidences").getD (Json.obj []) with
    | Json.obj mapping, Json.obj confidences =>
      some (placeholders.foldl (fun m ph => asetdefault m ph (Json.str "")) mapping,
        placeholders.foldl (fun m ph => asetdefault m ph (Json.num 0)) confidences)
    | _, _ => none
  | _ => none

/-- One step of `parsed.setdefault(key, \x7b\x7d).setdefault(ph, v)`: when
`key` is absent a fresh one-entry dict is appended; when present its value
must be a dict (else `AttributeError`) and gets `ph` defaulted into it. -/
def dictSetdefaultInner (m : JObj) (key : String) (ph : String) (v : Json) :
    Option JObj :=
  match alookup m key with
  | none => some (m ++ [(key, Json.obj [(ph, v)])])
  | some (Json.obj inner) => some (aset m key (Json.obj (asetdefault inner ph v)))
  | some _ => none

/-- Model of `llm_strict_validation` after `json.loads`: for every placeholder,
`setdefault` it into the `mapping`, `status` and `reasons` members of the
parsed reply.  Crashes (`none`) when `parsed` or a present member is not a
dict. -/
def llm_strict_validation (placeholders : List String) (parsed : Json) :
    Option Json :=
  match parsed with
  | Json.obj kvs =>
    (placeholders.foldlM (fun m ph => do
      let m1 ← dictSetdefaultInner m "mapping" ph (Json.str "")
      let m2 ← dictSetdefaultInner m1 "status" ph (Json.str "MISSING")
      dictSetdefaultInner m2 "reasons" ph (Json.str "")) kvs).map Json.obj
  | _ => none

/-- Model of `llm_field_audit` after `json.loads`: for every placeholder,
`setdefault` it into the `field_values` and `evidence` members. -/
def llm_field_audit (placeholders : List String) (parsed : Json) :
    Option Json :=
  match parsed with
  | Json.obj kvs =>
    (placeholders.foldlM (fun m ph => do
      let m1 ← dictSetdefaultInner m "field_values" ph (Json.str "")
      dictSetdefaultInner m1 "evidence" ph (Json.str "")) kvs).map Json.obj
  | _ => none

/-! ## `llm_voting` (app.py lines 179-228)

Voting performs up to three rounds.  Each round builds its own request
(system prompt mentioning the round temperature, fixed user prompt), posts
it synchronously with `requests.post`, raises on HTTP errors, extracts the
first JSON block of the reply and parses it; a `json.loads` failure is
caught and skips just that round (`continue`).  Each parsed round
contributes, for every placeholder with a truthy value in the reply, the
stripped string value as a candidate; the final value of a placeholder is
the most common candidate (ties broken by first appearance), or `""` when
there is none.

The per-round parse outcomes enter the model as `responses : List
(Option Json)` consumed strictly in round order: entry `i` is the parse
outcome of the reply to request `i` (`none` = `json.loads` raised). -/

/-- The Python float literals `[0.0, 0.2, 0.6]` of the voting rounds,
as rationals. -/
def votingTemps : List ℚ := [0, 1/5, 3/5]

/-- The `repr` of the three voting-temperature floats, as interpolated into the
system prompt. -/
def floatRepr (t : ℚ) : String :=
  if t = 0 then "0.0" else if t = 1/5 then "0.2" else if t = 3/5 then "0.6"
  else toString t

/-- Model of `json.dumps(placeholders, indent=2)` for a list of plain strings
(none of the placeholder names need JSON escaping). -/
def jsonDumpsList (l : List String) : String :=
  if l.isEmpty then "[]"
  else "[\n" ++ String.intercalate ",\n" (l.map (fun s => "  \"" ++ s ++ "\"")) ++ "\n]"

/-- The model name sent with every request. -/
def MODEL_NAME : String := "gpt-4o-mini"

/-- One request payload posted to the OpenRouter endpoint. -/
structure ORRequest where
  model : String
  system : String
  user : String
  temperature : ℚ
  maxTokens : Nat

/-- System prompt of one voting round. -/
def votingPromptSystem (t : ℚ) : String :=
  "You are an extractor (voting pass temp=" ++ floatRepr t ++
    "). Return ONLY JSON mapping placeholders->values."

/-- User prompt of one voting round. -/
def votingPromptUser (placeholders : List String) (pdfText : String) : String :=
  "Placeholders:\n" ++ jsonDumpsList placeholders ++ "\n\n" ++
    "PDF TEXT:\n----BEGIN----\n" ++ pdfText ++ "\n----END----\n" ++
    "Return ONLY raw JSON."

/-- The sequence of HTTP requests `llm_voting` posts, one per round, in
the order of `temps = [0.0, 0.2, 0.6][:rounds]`. -/
def votingRequests (placeholders : List String) (pdfText : String)
    (rounds : Nat) : List ORRequest :=
  (votingTemps.take rounds).map (fun t =>
    { model := MODEL_NAME, system := votingPromptSystem t,
      user := votingPromptUser placeholders pdfText,
      temperature := t, maxTokens := 1200 })

/-- The per-placeholder candidate lists (`candidates` in the source). -/
abbrev Cands := List (String × List String)

/-- The initial `candidates = \x7bph: [] for ph in placeholders\x7d`. -/
def initCands (placeholders : List String) : Cands :=
  (dedupFirst placeholders).map (fun ph => (ph, []))

/-- Model of `candidates[ph].append(s)` (the key is present whenever the source
reaches this line; on an absent key the model is the identity). -/
def appendCand : Cands → String → String → Cands
  | [], _, _ => []
  | (k, vs) :: rest, ph, s =>
    if k = ph then (k, vs ++ [s]) :: rest else (k, vs) :: appendCand rest ph s

/-- One parsed voting round: for each placeholder, when `parsed.get(ph)` is
truthy append `parsed[ph].strip()` to its candidates.  Crashes (`none`)
when `parsed` is not a dict (`.get` raises) or a truthy value is not a
string (`.strip` raises). -/
def roundUpdate (placeholders : List String) (cands : Cands) (parsed : Json) :
    Option Cands :=
  match parsed with
  | Json.obj kvs =>
    placeholders.foldlM (fun cs ph =>
      match alookup kvs ph with
      | none => some cs
      | some v =>
        if v.truthy then
          match v with
          | Json.str s => some (appendCand cs ph s.trim)
          | _ => none
        else some cs) cands
  | _ => none

/-- The voting loop over the rounds, consuming the parse outcome of each
round's reply in order: a `none` outcome (a `json.loads` failure) is
skipped by `continue`; a crash inside a round aborts `llm_voting`. -/
def votingCollect (placeholders : List String) :
    Cands → List (Option Json) → Option Cands
  | cands, [] => some cands
  | cands, none :: rest => votingCollect placeholders cands rest
  | cands, some parsed :: rest =>
    match roundUpdate placeholders cands parsed with
    | none => none
    | some cands2 => votingCollect placeholders cands2 rest

/-- Number of occurrences of `x` in `vals`. -/
def countOcc (vals : List String) (x : String) : Nat :=
  vals.countP (fun y => y == x)

/-- Model of `dict(collections.Counter(vals))`: distinct values in first-appearance
order, each with its count. -/
def counterList (vals : List String) : List (String × Nat) :=
  (dedupFirst vals).map (fun k => (k, countOcc vals k))

/-- Model of `collections.Counter(vals).most_common(1)[0][0]`: a value with the
largest count; `most_common` sorts stably over first-insertion order, so
ties go to the earliest-seen value. -/
def mostCommon (vals : List String) : Option String :=
  ((counterList vals).foldl (fun best kv =>
    match best with
    | none => some kv
    | some b => if kv.2 > b.2 then some kv else best) none).map Prod.fst

/-- The value of `llm_voting`. -/
structure VotingResult where
  mapping : JObj
  votes : List (String × List (String × Nat))
  candidates : Cands

/-- Model of `llm_voting` as a function of the per-round parse outcomes. -/
def llm_voting (placeholders : List String) (responses : List (Option Json)) :
    Option VotingResult :=
  (votingCollect placeholders (initCands placeholders) responses).map
    (fun cands =>
      { mapping := cands.map (fun kv => (kv.1, Json.str ((mostCommon kv.2).getD ""))),
        votes := cands.map (fun kv => (kv.1, counterList kv.2)),
        candidates := cands })

/-! ## The Run Extraction merge block (app.py lines 352-378) -/

/-- Outcome of the no-missing-data inference call: `fail` when
`call_openrouter` raised (missing key, HTTP error) or `json.loads` failed;
`ok nm` when the reply parsed to the JSON value `nm`. -/
inductive NmOutcome where
  | fail
  | ok (nm : Json)

/-- The loop `for ph in placeholders: if not mapping.get(ph): mapping[ph] =
fallback.get(ph, "")` — fill falsy or absent entries from the fallback
dict. -/
def mergeStep (placeholders : List String) (m0 : JObj)
    (fallback : List (String × String)) : JObj :=
  placeholders.foldl (fun m ph =>
    if (match alookup m ph with
        | none => true
        | some v => !v.truthy) then
      aset m ph (Json.str ((alookup fallback ph).getD ""))
    else m) m0

/-- The list `[k for k, v in mapping.items() if v == ""]`. -/
def stillEmptyKeys (m : JObj) : List String :=
  (m.filter (fun kv => kv.2.isEmptyStr)).map Prod.fst

/-- The `for k, v in nm_map.items()` loop: update entries that are still
`""`.  Looking up a key absent from `mapping` raises `KeyError`, which the
surrounding `except` catches — the updates already applied are kept. -/
def applyNm (m : JObj) : List (String × Json) → JObj
  | [] => m
  | (k, v) :: rest =>
    match alookup m k with
    | none => m
    | some cur => applyNm (if cur.isEmptyStr then aset m k v else m) rest

/-- The whole `try`/`except` of the no-missing-data pass: a failed call or
parse, or a non-dict parse (whose `.items()` raises), leaves the mapping
unchanged. -/
def nmPass (m : JObj) : NmOutcome → JObj
  | .fail => m
  | .ok (Json.obj kvs) => applyNm m kvs
  | .ok _ => m

/-- The merge block: fallback fill of blanks, then — only when some entry
is still `""` — the best-effort no-missing-data pass. -/
def runExtractionMerge (placeholders : List String) (m0 : JObj)
    (fallback : List (String × String)) (nm : NmOutcome) : JObj :=
  let m1 := mergeStep placeholders m0 fallback
  if (stillEmptyKeys m1).isEmpty then m1 else nmPass m1 nm

/-! ## `extract_first_json_block` (app.py lines 59-71) -/

/-- The suffix of `text` starting at `text.find("\x7b")`; `[]` when there is
no opening brace (`find` returned `-1`). -/
def dropTillBrace : List Char → List Char
  | [] => []
  | c :: rest => if c = '{' then c :: rest else dropTillBrace rest

/-- The `for i in range(start, len(text))` loop, running over the suffix
that starts at the first `\x7b`: keep a running brace count and return the
index (relative to `start`) of the character at which the count, after
update, reaches zero on a closing brace; `none` when the loop falls off the
end. -/
def braceLoopLen : List Char → Int → Option Nat
  | [], _ => none
  | c :: rest, braces =>
    let b := if c = '{' then braces + 1 else if c = '}' then braces - 1 else braces
    if c = '}' ∧ b = 0 then some 0
    else (braceLoopLen rest b).map Nat.succ

/-- Model of `extract_first_json_block(text)`: the slice `text[start:i+1]` from the
first `\x7b` through the brace that balances it, or `""` when there is no
`\x7b` or the count never returns to zero. -/
def extract_first_json_block (s : List Char) : List Char :=
  let suf := dropTillBrace s
  match braceLoopLen suf 0 with
  | some i => suf.take (i + 1)
  | none => []

/-- Running brace balance of a string: occurrences of `\x7b` minus
occurrences of `\x7d`. -/
def braceBal (l : List Char) : Int :=
  (l.countP (fun c => c == '{') : Int) - (l.countP (fun c => c == '}') : Int)

/-! ## The `.docx` model, `find_placeholders` and `fill_docx` -/

/-- One section of a document: its header and footer paragraph texts. -/
structure Section where
  header : List (List Char)
  footer : List (List Char)

/-- A `.docx` document as traversed by the program: body paragraph texts,
tables (rows of cells of paragraph texts), and sections. -/
structure Docx where
  paragraphs : List (List Char)
  tables : List (List (List (List (List Char))))
  sections : List Section

/-- A character of the placeholder-name class `[A-Za-z0-9_]`. -/
def isWordChar (c : Char) : Bool :=
  ('A' ≤ c && c ≤ 'Z') || ('a' ≤ c && c ≤ 'z') || ('0' ≤ c && c ≤ '9') || c == '_'

/-- Dropping a `takeWhile` prefix never lengthens a list. -/
theorem dropWhile_length_le (p : Char → Bool) :
    ∀ l : List Char, (l.dropWhile p).length ≤ l.length := by
  intro l
  induction l with
  | nil => simp [List.dropWhile]
  | cons c rest ih =>
    by_cases h : p c
    · simp [List.dropWhile, h]
      omega
    · simp [List.dropWhile, h]

/-- All matches of `PLACEHOLDER_RE = \x5c[([A-Za-z0-9_]+)\x5c]` in a
paragraph text, in order (`re.findall` semantics: at an opening bracket the
engine takes the maximal run of name characters and requires a closing
bracket right after; on failure it retries one character further). -/
def scanNames : List Char → List (List Char)
  | [] => []
  | c :: rest =>
    if c = '[' ∧ rest.takeWhile isWordChar ≠ [] ∧
        (rest.dropWhile isWordChar).head? = some ']' then
      rest.takeWhile isWordChar :: scanNames (rest.dropWhile isWordChar).tail
    else scanNames rest
termination_by l => l.length
decreasing_by
  all_goals simp only [List.length_tail, List.length_cons]
  · have h1 : (rest.dropWhile isWordChar).length ≤ rest.length :=
      dropWhile_length_le isWordChar rest
    omega
  · omega

/-- The paragraph texts `find_placeholders` scans: the document body, every
table cell, and every section header and footer. -/
def allParagraphs (d : Docx) : List (List Char) :=
  d.paragraphs ++
    (d.tables.flatMap fun t => t.flatMap fun row => row.flatMap fun cell => cell) ++
    (d.sections.flatMap fun s => s.header ++ s.footer)

/-- Insert into a strictly sorted list, skipping an element already
present. -/
def insertSorted (x : String) : List String → List String
  | [] => [x]
  | y :: ys =>
    if x = y then y :: ys
    else if x < y then x :: y :: ys
    else y :: insertSorted x ys

/-- Model of `sorted(set(l))` for Python strings (lexicographic by code point). -/
def sortDedup (l : List String) : List String :=
  l.foldl (fun acc x => insertSorted x acc) []

/-- Model of `find_placeholders(doc)`: the sorted set of regex matches over the
body, table-cell and section header/footer paragraphs. -/
def find_placeholders (d : Docx) : List String :=
  sortDedup ((allParagraphs d).flatMap (fun p => (scanNames p).map (fun cs => String.mk cs)))

/-- The literal token `"[" ++ k ++ "]"` substituted by `fill_docx`. -/
def tokenOf (k : String) : List Char :=
  '[' :: k.data ++ [']']

/-- Boolean prefix test on character lists. -/
def isPrefixList : List Char → List Char → Bool
  | [], _ => true
  | _ :: _, [] => false
  | a :: as, b :: bs => a = b && isPrefixList as bs

/-- Python `pat in txt`: substring test. -/
def containsSub (pat : List Char) : List Char → Bool
  | [] => pat.isEmpty
  | c :: rest => isPrefixList pat (c :: rest) || containsSub pat rest

/-- Python `txt.replace(pat, rep)` for a non-empty `pat`: replace every
non-overlapping occurrence, scanning left to right. -/
def listReplace (pat rep : List Char) : List Char → List Char
  | [] => []
  | c :: rest =>
    if pat ≠ [] ∧ isPrefixList pat (c :: rest) then
      rep ++ listReplace pat rep ((c :: rest).drop pat.length)
    else c :: listReplace pat rep rest
termination_by l => l.length
decreasing_by
  · rename_i h
    have : pat.length ≠ 0 := fun hn => h.1 (List.length_eq_zero.mp hn)
    simp only [List.length_drop, List.length_cons]
    omega
  · simp

/-- A single-quote character as a string (code point 39). -/
def quoteChar : String := String.mk [Char.ofNat 39]

mutual

/-- Python `repr` of a JSON-derived value (used by `str` on non-string
values; string elements are shown in single quotes, assuming they need no
escaping). -/
def pyRepr : Json → String
  | Json.null => "None"
  | Json.bool true => "True"
  | Json.bool false => "False"
  | Json.num n => toString n
  | Json.str s => quoteChar ++ s ++ quoteChar
  | Json.arr elems => "[" ++ String.intercalate ", " (pyReprList elems) ++ "]"
  | Json.obj entries => "\x7b" ++ String.intercalate ", " (pyReprObj entries) ++ "\x7d"

/-- The `repr` of each array element. -/
def pyReprList : List Json → List String
  | [] => []
  | x :: xs => pyRepr x :: pyReprList xs

/-- The `repr` of each dict entry. -/
def pyReprObj : List (String × Json) → List String
  | [] => []
  | (k, v) :: rest => (quoteChar ++ k ++ quoteChar ++ ": " ++ pyRepr v) :: pyReprObj rest

end

/-- Python `str(v)` for a JSON-derived value: a string is returned as is,
anything else through `repr`-like printing. -/
def pyStr : Json → String
  | Json.str s => s
  | v => pyRepr v

/-- The `repl` closure of `fill_docx`: for each mapping entry in insertion
order, when the token `[k]` occurs in the text, replace every occurrence
with `str(v)`. -/
def repl (mapping : JObj) (txt : List Char) : List Char :=
  mapping.foldl (fun t kv =>
    if containsSub (tokenOf kv.1) t then
      listReplace (tokenOf kv.1) (pyStr kv.2).data t
    else t) txt

/-- Model of `fill_docx(template_bytes, mapping)`: apply `repl` to every body
paragraph and every table cell paragraph; sections (headers and footers)
are not visited. -/
def fill_docx (d : Docx) (mapping : JObj) : Docx :=
  { paragraphs := d.paragraphs.map (repl mapping),
    tables := d.tables.map (fun t => t.map (fun row => row.map (fun cell =>
      cell.map (repl mapping)))),
    sections := d.sections }

/-- The tail of the Run Extraction handler: merge the mode mapping with the
fallback, run the best-effort no-missing-data pass, and fill the uploaded
template with the final mapping; the second component is the document
offered by the download button. -/
def runExtraction (template : Docx) (m0 : JObj)
    (fallback : List (String × String)) (nm : NmOutcome) : JObj × Docx :=
  let mapping := runExtractionMerge (find_placeholders template) m0 fallback nm
  (mapping, fill_docx template mapping)

/-- Spec-side reading of the template fill: in a paragraph text, for each
key of the mapping in order, every occurrence of the token `[K]` is
replaced by the string conversion of the value of `K` (no occurrence
check). -/
def substAll (mapping : JObj) (txt : List Char) : List Char :=
  mapping.foldl (fun t kv => listReplace (tokenOf kv.1) (pyStr kv.2).data t) txt

/-! ## Association-list lemmas -/

theorem alookup_aset_self {α : Type} (m : List (String × α)) (k : String) (v : α) :
    alookup (aset m k v) k = some v := by
  induction m with
  | nil => simp [aset, alookup]
  | cons kv rest ih =>
    obtain ⟨k0, w⟩ := kv
    by_cases h : k0 = k
    · simp [aset, h, alookup]
    · simp [aset, h, alookup, ih]

theorem alookup_aset_ne {α : Type} (m : List (String × α)) (k key : String) (v : α)
    (h : key ≠ k) : alookup (aset m k v) key = alookup m key := by
  have hk : k ≠ key := fun hh => h hh.symm
  induction m with
  | nil => simp [aset, alookup, hk]
  | cons kv rest ih =>
    obtain ⟨k0, w⟩ := kv
    by_cases h0 : k0 = k
    · subst h0
      simp [aset, alookup, hk]
    · simp only [aset, if_neg h0, alookup]
      rw [ih]

theorem alookup_aset_isSome {α : Type} (m : List (String × α)) (k key : String) (v : α)
    (h : (alookup m key).isSome) : (alookup (aset m k v) key).isSome := by
  by_cases hk : key = k
  · subst hk
    simp [alookup_aset_self]
  · rwa [alookup_aset_ne m k key v hk]

/-! ## Lemmas about the fallback-fill loop (`mergeStep`) -/

/-- A single fallback-fill step, named for the proofs below. -/
def mergeStepF (fallback : List (String × String)) (m : JObj) (ph : String) : JObj :=
  if (match alookup m ph with
      | none => true
      | some v => !v.truthy) then
    aset m ph (Json.str ((alookup fallback ph).getD ""))
  else m

theorem mergeStep_eq_foldl (placeholders : List String) (m0 : JObj)
    (fallback : List (String × String)) :
    mergeStep placeholders m0 fallback = placeholders.foldl (mergeStepF fallback) m0 := rfl

theorem mergeStepF_isSome (fallback : List (String × String)) (m : JObj)
    (ph key : String) (h : (alookup m key).isSome) :
    (alookup (mergeStepF fallback m ph) key).isSome := by
  unfold mergeStepF
  split
  · exact alookup_aset_isSome _ _ _ _ h
  · exact h

theorem mergeStep_preserves_isSome (placeholders : List String) (fallback : List (String × String)) :
    ∀ (m : JObj) (key : String), (alookup m key).isSome →
      (alookup (mergeStep placeholders m fallback) key).isSome := by
  induction placeholders with
  | nil => intro m key h; exact h
  | cons ph rest ih =>
    intro m key h
    rw [mergeStep_eq_foldl] at *
    simp only [List.foldl_cons]
    exact ih _ key (mergeStepF_isSome fallback m ph key h)

theorem mergeStep_total (placeholders : List String) (fallback : List (String × String)) :
    ∀ (m : JObj) (ph : String), ph ∈ placeholders →
      (alookup (mergeStep placeholders m fallback) ph).isSome := by
  induction placeholders with
  | nil => intro m ph h; cases h
  | cons q rest ih =>
    intro m ph h
    rw [mergeStep_eq_foldl]
    simp only [List.foldl_cons]
    rw [← mergeStep_eq_foldl]
    rcases List.mem_cons.mp h with h | h
    · subst h
      apply mergeStep_preserves_isSome
      unfold mergeStepF
      split
      · simp [alookup_aset_self]
      · rename_i hcond
        cases hlk : alookup m ph with
        | none => rw [hlk] at hcond; simp at hcond
        | some v => simp
    · exact ih _ ph h

theorem mergeStep_preserves_truthy (placeholders : List String) (fallback : List (String × String)) :
    ∀ (m : JObj) (ph : String) (v : Json), alookup m ph = some v → v.truthy = true →
      alookup (mergeStep placeholders m fallback) ph = some v := by
  induction placeholders with
  | nil => intro m ph v h _; exact h
  | cons q rest ih =>
    intro m ph v h hv
    rw [mergeStep_eq_foldl]
    simp only [List.foldl_cons]
    rw [← mergeStep_eq_foldl]
    by_cases hq : q = ph
    · subst hq
      have : mergeStepF fallback m q = m := by
        unfold mergeStepF
        rw [h]
        simp [hv]
      rw [this]
      exact ih m q v h hv
    · apply ih _ ph v _ hv
      unfold mergeStepF
      split
      · rw [alookup_aset_ne _ _ _ _ (fun hh => hq hh.symm)]
        exact h
      · exact h

/-- Once a placeholder holds the string value the fallback dict assigns to
it, the remaining fallback-fill steps keep that value (a re-processed
duplicate placeholder re-writes the identical value). -/
theorem mergeStep_preserves_fallback_value (placeholders : List String)
    (fallback : List (String × String)) :
    ∀ (m : JObj) (ph : String),
      alookup m ph = some (Json.str ((alookup fallback ph).getD "")) →
      alookup (mergeStep placeholders m fallback) ph =
        some (Json.str ((alookup fallback ph).getD "")) := by
  induction placeholders with
  | nil => intro m ph h; exact h
  | cons q rest ih =>
    intro m ph h
    rw [mergeStep_eq_foldl]
    simp only [List.foldl_cons]
    rw [← mergeStep_eq_foldl]
    apply ih
    by_cases hq : q = ph
    · subst hq
      unfold mergeStepF
      split
      · rw [alookup_aset_self]
      · exact h
    · unfold mergeStepF
      split
      · rw [alookup_aset_ne _ _ _ _ (fun hh => hq hh.symm)]
        exact h
      · exact h

/-- An entry the fallback-fill loop changed now holds the string value the
fallback dict supplies for it. -/
theorem mergeStep_changed_value (placeholders : List String)
    (fallback : List (String × String)) :
    ∀ (m : JObj) (ph : String),
      alookup (mergeStep placeholders m fallback) ph ≠ alookup m ph →
      alookup (mergeStep placeholders m fallback) ph =
        some (Json.str ((alookup fallback ph).getD "")) := by
  induction placeholders with
  | nil => intro m ph h; exact absurd rfl h
  | cons q rest ih =>
    intro m ph h
    have hexp : mergeStep (q :: rest) m fallback =
        mergeStep rest (mergeStepF fallback m q) fallback := rfl
    rw [hexp] at h ⊢
    by_cases hq : q = ph
    · subst hq
      by_cases hcond : (match alookup m q with
          | none => true
          | some v => !v.truthy) = true
      · have hset : alookup (mergeStepF fallback m q) q =
            some (Json.str ((alookup fallback q).getD "")) := by
          unfold mergeStepF
          rw [if_pos hcond, alookup_aset_self]
        exact mergeStep_preserves_fallback_value rest fallback _ q hset
      · have hid : mergeStepF fallback m q = m := by
          unfold mergeStepF
          rw [if_neg hcond]
        rw [hid] at h ⊢
        exact ih m q h
    · have hstep : alookup (mergeStepF fallback m q) ph = alookup m ph := by
        unfold mergeStepF
        split
        · exact alookup_aset_ne _ _ _ _ (fun hh => hq hh.symm)
        · rfl
      rw [← hstep] at h
      exact ih _ ph h

/-! ## Lemmas about the no-missing-data update loop (`applyNm`) -/

theorem applyNm_preserves_nonempty :
    ∀ (entries : List (String × Json)) (m : JObj) (k : String) (v : Json),
      alookup m k = some v → v.isEmptyStr = false →
      alookup (applyNm m entries) k = some v := by
  intro entries
  induction entries with
  | nil => intro m k v h _; exact h
  | cons kv rest ih =>
    intro m k v h hv
    obtain ⟨k0, v0⟩ := kv
    unfold applyNm
    cases hlk : alookup m k0 with
    | none => exact h
    | some cur =>
      apply ih _ k v _ hv
      by_cases hk : k0 = k
      · subst hk
        rw [h] at hlk
        injection hlk with h2
        subst h2
        rw [if_neg (by simp [hv])]
        exact h
      · split
        · rw [alookup_aset_ne _ _ _ _ (fun hh => hk hh.symm)]
          exact h
        · exact h

theorem applyNm_preserves_isSome :
    ∀ (entries : List (String × Json)) (m : JObj) (k : String),
      (alookup m k).isSome → (alookup (applyNm m entries) k).isSome := by
  intro entries
  induction entries with
  | nil => intro m k h; exact h
  | cons kv rest ih =>
    intro m k h
    obtain ⟨k0, v0⟩ := kv
    unfold applyNm
    cases hlk : alookup m k0 with
    | none => exact h
    | some cur =>
      apply ih
      split
      · exact alookup_aset_isSome _ _ _ _ h
      · exact h

theorem nmPass_preserves_nonempty (m : JObj) (nm : NmOutcome) (k : String) (v : Json)
    (h : alookup m k = some v) (hv : v.isEmptyStr = false) :
    alookup (nmPass m nm) k = some v := by
  cases nm with
  | fail => exact h
  | ok j =>
    cases j <;> simp only [nmPass] <;> try exact h
    exact applyNm_preserves_nonempty _ m k v h hv

theorem nmPass_preserves_isSome (m : JObj) (nm : NmOutcome) (k : String)
    (h : (alookup m k).isSome) : (alookup (nmPass m nm) k).isSome := by
  cases nm with
  | fail => exact h
  | ok j =>
    cases j <;> simp only [nmPass] <;> try exact h
    exact applyNm_preserves_isSome _ m k h

theorem runExtractionMerge_eq (placeholders : List String) (m0 : JObj)
    (fallback : List (String × String)) (nm : NmOutcome) :
    runExtractionMerge placeholders m0 fallback nm =
      if (stillEmptyKeys (mergeStep placeholders m0 fallback)).isEmpty then
        mergeStep placeholders m0 fallback
      else nmPass (mergeStep placeholders m0 fallback) nm := rfl

/-- A non-empty string has a non-empty character list. -/
theorem data_isEmpty_false_of_ne {s : String} (hs : s ≠ "") :
    s.data.isEmpty = false := by
  cases s with
  | mk data =>
    cases data with
    | nil => exact absurd rfl hs
    | cons c cs => rfl

/-! ## Claims about the merge block (C1, C2, C4, C6) -/

/-- C1 (counterexample).  The merge and default-filling logic does NOT
guarantee a non-empty value for every placeholder.  Concrete run: the
template has the single placeholder `FOO`; the combined PDF text is empty,
so every fallback regex fails and `fallback_structured` maps `FOO` to `""`;
the high-accuracy LLM reply is `{"mapping": {}}` (so `FOO` is defaulted to
`""`); the secondary no-missing-data reply is `{}`.  After the fallback
fill and the secondary pass, `FOO` is still mapped to the empty string. -/
theorem merge_can_finish_with_empty_value :
    llm_high_accuracy ["FOO"] (Json.obj [("mapping", Json.obj [])]) =
      some ([("FOO", Json.str "")], [("FOO", Json.num 0)]) ∧
    fallback_structured ["FOO"] ⟨none, none, none, none⟩ "01/03/2026" = [("FOO", "")] ∧
    runExtractionMerge ["FOO"] [("FOO", Json.str "")]
        (fallback_structured ["FOO"] ⟨none, none, none, none⟩ "01/03/2026")
        (NmOutcome.ok (Json.obj [])) = [("FOO", Json.str "")] ∧
    (Json.str "").isEmptyStr = true :=
  ⟨rfl, rfl, rfl, rfl⟩

/-- C1 (amended).  After the merge and default-filling logic completes,
every placeholder detected in the template has an entry in the final
mapping; the value, however, may be the empty string — non-emptiness is
best-effort only. -/
theorem merge_total_on_placeholders (placeholders : List String) (m0 : JObj)
    (fallback : List (String × String)) (nm : NmOutcome) (ph : String)
    (h : ph ∈ placeholders) :
    ∃ v, alookup (runExtractionMerge placeholders m0 fallback nm) ph = some v := by
  have h1 := mergeStep_total placeholders fallback m0 ph h
  rw [runExtractionMerge_eq]
  split
  · exact Option.isSome_iff_exists.mp h1
  · exact Option.isSome_iff_exists.mp (nmPass_preserves_isSome _ nm ph h1)

/-- Witness for `merge_total_on_placeholders`. -/
theorem merge_total_on_placeholders_witness :
    ∃ v, alookup (runExtractionMerge ["A"] [] [] NmOutcome.fail) "A" = some v :=
  merge_total_on_placeholders ["A"] [] [] NmOutcome.fail "A" (by simp)

/-- C2.  A placeholder whose LLM-produced value is a non-empty string keeps
that value through the fallback merge and the secondary pass; and whenever
the fallback merge changes an entry, the LLM value was absent or falsy and
the new value is the fallback value for that placeholder. -/
theorem llm_value_kept_fallback_only_for_falsy (placeholders : List String)
    (m0 : JObj) (fallback : List (String × String)) (nm : NmOutcome) (ph : String) :
    (∀ s : String, alookup m0 ph = some (Json.str s) → s ≠ "" →
      alookup (runExtractionMerge placeholders m0 fallback nm) ph = some (Json.str s)) ∧
    (alookup (mergeStep placeholders m0 fallback) ph ≠ alookup m0 ph →
      (alookup m0 ph = none ∨ ∃ v, alookup m0 ph = some v ∧ v.truthy = false) ∧
      alookup (mergeStep placeholders m0 fallback) ph =
        some (Json.str ((alookup fallback ph).getD ""))) := by
  constructor
  · intro s h hs
    have hne : s.data.isEmpty = false := data_isEmpty_false_of_ne hs
    have htr : (Json.str s).truthy = true := by simp [Json.truthy, hne]
    have hm1 := mergeStep_preserves_truthy placeholders fallback m0 ph _ h htr
    rw [runExtractionMerge_eq]
    split
    · exact hm1
    · exact nmPass_preserves_nonempty _ nm ph _ hm1 (by simp [Json.isEmptyStr, hne])
  · intro hch
    refine ⟨?_, mergeStep_changed_value placeholders fallback m0 ph hch⟩
    by_contra hcon
    push_neg at hcon
    obtain ⟨h1, h2⟩ := hcon
    cases hlk : alookup m0 ph with
    | none => exact h1 hlk
    | some v =>
      have htr : v.truthy = true := by
        cases htv : v.truthy
        · exact absurd htv (h2 v hlk)
        · rfl
      exact hch (by rw [mergeStep_preserves_truthy placeholders fallback m0 ph v hlk htr, hlk])

/-- Witness for `llm_value_kept_fallback_only_for_falsy`. -/
theorem llm_value_kept_fallback_only_for_falsy_witness :
    alookup (runExtractionMerge ["A"] [("A", Json.str "x")] [] NmOutcome.fail) "A" =
      some (Json.str "x") :=
  (llm_value_kept_fallback_only_for_falsy ["A"] [("A", Json.str "x")] [] NmOutcome.fail "A").1
    "x" rfl (by decide)

/-- C4 (counterexample).  An exception inside the secondary pass does not
always leave the mapping as it was after the fallback merge.  Concrete run:
after the merge the mapping is `{"A": ""}`; the no-missing-data reply
parses to `{"A": "x", "BOGUS": "y"}`.  The update loop first sets `A` to
`"x"`, then raises `KeyError` on `BOGUS` (absent from the mapping); the
`except` swallows the error but the update to `A` survives. -/
theorem nm_exception_keeps_applied_updates :
    mergeStep ["A"] [("A", Json.str "")] [("A", "")] = [("A", Json.str "")] ∧
    runExtractionMerge ["A"] [("A", Json.str "")] [("A", "")]
        (NmOutcome.ok (Json.obj [("A", Json.str "x"), ("BOGUS", Json.str "y")])) =
      [("A", Json.str "x")] ∧
    ¬ ([("A", Json.str "x")] : JObj) = [("A", Json.str "")] := by
  refine ⟨rfl, rfl, ?_⟩
  intro h
  have h2 : "x" = "" := congrArg (fun l : JObj => match l with
    | (_, Json.str s) :: _ => s
    | _ => "") h
  exact absurd h2 (by decide)

/-- C4 (amended).  A failure of the secondary call itself or of parsing its
reply — an HTTP error, a JSON parse error, or a reply that is not a JSON
object (whose `.items()` raises) — is caught and leaves the mapping exactly
as after the fallback merge.  (Only an exception raised midway through
applying the parsed entries keeps the updates already applied, as the
counterexample shows.) -/
theorem nm_failure_before_updates_leaves_mapping (placeholders : List String)
    (m0 : JObj) (fallback : List (String × String)) :
    runExtractionMerge placeholders m0 fallback NmOutcome.fail =
      mergeStep placeholders m0 fallback ∧
    (∀ elems, runExtractionMerge placeholders m0 fallback (NmOutcome.ok (Json.arr elems)) =
      mergeStep placeholders m0 fallback) ∧
    (∀ s, runExtractionMerge placeholders m0 fallback (NmOutcome.ok (Json.str s)) =
      mergeStep placeholders m0 fallback) := by
  refine ⟨?_, fun elems => ?_, fun s => ?_⟩ <;>
    (rw [runExtractionMerge_eq]; split <;> rfl)

/-- C6 (counterexample).  The final mapping is not always a mapping to
string values: a truthy non-string JSON value from the LLM (here the number
`5`) survives the fallback merge untouched and reaches template filling as
a non-string. -/
theorem merge_result_value_not_string :
    llm_high_accuracy ["A"] (Json.obj [("mapping", Json.obj [("A", Json.num 5)])]) =
      some ([("A", Json.num 5)], [("A", Json.num 0)]) ∧
    runExtractionMerge ["A"] [("A", Json.num 5)] [("A", "")] NmOutcome.fail =
      [("A", Json.num 5)] ∧
    (Json.num 5).isString = false :=
  ⟨rfl, rfl, rfl⟩

/-- C6 (amended).  Every entry the fallback merge itself writes is a
string; values kept from a truthy LLM output, or accepted verbatim from
the secondary inference pass, may be arbitrary JSON values and are
converted to strings only later, by `str(v)` inside `fill_docx`. -/
theorem merge_overwrites_only_with_strings (placeholders : List String) (m0 : JObj)
    (fallback : List (String × String)) (ph : String)
    (h : alookup (mergeStep placeholders m0 fallback) ph ≠ alookup m0 ph) :
    ∃ s, alookup (mergeStep placeholders m0 fallback) ph = some (Json.str s) :=
  ⟨_, mergeStep_changed_value placeholders fallback m0 ph h⟩

/-- Witness for `merge_overwrites_only_with_strings`. -/
theorem merge_overwrites_only_with_strings_witness :
    ∃ s, alookup (mergeStep ["A"] [("A", Json.null)] [("A", "fb")]) "A" =
      some (Json.str s) :=
  merge_overwrites_only_with_strings ["A"] [("A", Json.null)] [("A", "fb")] "A"
    (by
      intro heq
      have h1 : alookup (mergeStep ["A"] [("A", Json.null)] [("A", "fb")]) "A" =
          some (Json.str "fb") := rfl
      have h2 : alookup [("A", Json.null)] "A" = some Json.null := rfl
      rw [h1, h2] at heq
      injection heq with h3
      exact Json.noConfusion h3)

/-! ## Claims about the voting mode (C3, C7) -/

/-- C3 (counterexample).  Voting and strict validation are not the same
algorithm run with different prompt text.  On the same parsed model reply
`{"mapping": {"A": "x"}}` (each voting round receiving exactly that
reply), strict validation extracts the mapping `{"A": "x"}` while voting
looks for the placeholder at the top level, collects no candidate, and
produces `{"A": ""}`. -/
theorem voting_strict_differ_on_same_response :
    llm_strict_validation ["A"] (Json.obj [("mapping", Json.obj [("A", Json.str "x")])]) =
      some (Json.obj [("mapping", Json.obj [("A", Json.str "x")]),
        ("status", Json.obj [("A", Json.str "MISSING")]),
        ("reasons", Json.obj [("A", Json.str "")])]) ∧
    (llm_voting ["A"] (List.replicate 3 (some (Json.obj
        [("mapping", Json.obj [("A", Json.str "x")])])))).map VotingResult.mapping =
      some [("A", Json.str "")] ∧
    ¬ (Json.str "x") = (Json.str "") := by
  refine ⟨rfl, rfl, ?_⟩
  intro h
  injection h with h2
  exact absurd h2 (by decide)

/-- C3 (amended).  The voting mode and the strict-validation mode are
distinct algorithms, not prompt-text variants of one algorithm: strict
validation issues a single request and reads the `mapping` member of the
reply, while voting issues up to three requests (at temperatures 0.0, 0.2
and 0.6) and majority-votes over top-level placeholder values; there are
identical model replies on which the two modes produce different values
for the same placeholder. -/
theorem voting_strict_are_distinct_algorithms :
    ∃ (placeholders : List String) (parsed : Json) (ph : String) (v1 v2 : Json),
      ((llm_strict_validation placeholders parsed).bind (fun j =>
        match j with
        | Json.obj kvs =>
          match alookup kvs "mapping" with
          | some (Json.obj inner) => alookup inner ph
          | _ => none
        | _ => none)) = some v1 ∧
      ((llm_voting placeholders (List.replicate 3 (some parsed))).bind
        (fun r => alookup r.mapping ph)) = some v2 ∧
      v1 ≠ v2 ∧ (votingRequests placeholders "" 3).length = 3 := by
  refine ⟨["A"], Json.obj [("mapping", Json.obj [("A", Json.str "x")])], "A",
    Json.str "x", Json.str "", rfl, rfl, ?_, rfl⟩
  intro h
  injection h with h2
  exact absurd h2 (by decide)

/-- C7.  The voting mode posts one request per round, in the fixed order of
the temperature list `[0.0, 0.2, 0.6]` (so up to three requests, issued
sequentially); the loop consumes the reply of round `i` before round `i+1`
begins (the collect loop walks the reply list in order), and a round whose
reply fails to parse is skipped without affecting what any other round
contributes. -/
theorem voting_requests_sequential_and_parse_skip (placeholders : List String)
    (pdfText : String) (cands : Cands) (rs1 rs2 : List (Option Json)) :
    votingRequests placeholders pdfText 3 =
      [⟨MODEL_NAME, votingPromptSystem 0, votingPromptUser placeholders pdfText, 0, 1200⟩,
       ⟨MODEL_NAME, votingPromptSystem (1/5), votingPromptUser placeholders pdfText, 1/5, 1200⟩,
       ⟨MODEL_NAME, votingPromptSystem (3/5), votingPromptUser placeholders pdfText, 3/5, 1200⟩] ∧
    votingCollect placeholders cands (rs1 ++ none :: rs2) =
      votingCollect placeholders cands (rs1 ++ rs2) := by
  constructor
  · rfl
  · induction rs1 generalizing cands with
    | nil => rfl
    | cons r rs ih =>
      cases r with
      | none =>
        show votingCollect placeholders cands (none :: (rs ++ none :: rs2)) =
          votingCollect placeholders cands (none :: (rs ++ rs2))
        rw [votingCollect, votingCollect]
        exact ih cands
      | some parsed =>
        show votingCollect placeholders cands (some parsed :: (rs ++ none :: rs2)) =
          votingCollect placeholders cands (some parsed :: (rs ++ rs2))
        rw [votingCollect, votingCollect]
        cases roundUpdate placeholders cands parsed with
        | none => rfl
        | some cands2 => exact ih cands2

/-! ## The template fill (C5) -/

theorem listReplace_of_not_contains (pat rep : List Char) :
    ∀ s : List Char, containsSub pat s = false → listReplace pat rep s = s := by
  intro s
  induction s with
  | nil => intro _; rw [listReplace]
  | cons c rest ih =>
    intro h
    rw [containsSub] at h
    have h1 : isPrefixList pat (c :: rest) = false := by
      cases hp : isPrefixList pat (c :: rest)
      · rfl
      · rw [hp] at h; simp at h
    have h2 : containsSub pat rest = false := by
      cases hp : containsSub pat rest
      · rfl
      · rw [hp] at h; simp at h
    rw [listReplace, if_neg]
    · rw [ih h2]
    · intro hc
      rw [h1] at hc
      exact Bool.false_ne_true hc.2

/-- The occurrence guard `if token in txt` of the source is redundant: the
guarded replacement equals the unconditional one. -/
theorem repl_eq_substAll (mapping : JObj) :
    ∀ txt : List Char, repl mapping txt = substAll mapping txt := by
  induction mapping with
  | nil => intro txt; rfl
  | cons kv rest ih =>
    intro txt
    have hstep : (if containsSub (tokenOf kv.1) txt then
        listReplace (tokenOf kv.1) (pyStr kv.2).data txt else txt) =
        listReplace (tokenOf kv.1) (pyStr kv.2).data txt := by
      split
      · rfl
      · rename_i hnc
        rw [listReplace_of_not_contains _ _ txt (by simpa using hnc)]
    calc repl (kv :: rest) txt
        = repl rest (if containsSub (tokenOf kv.1) txt then
            listReplace (tokenOf kv.1) (pyStr kv.2).data txt else txt) := rfl
      _ = repl rest (listReplace (tokenOf kv.1) (pyStr kv.2).data txt) := by rw [hstep]
      _ = substAll rest (listReplace (tokenOf kv.1) (pyStr kv.2).data txt) := ih _
      _ = substAll (kv :: rest) txt := rfl

/-- C5.  The document offered for download is `fill_docx` of the uploaded
template and the merged mapping, and `fill_docx` rewrites exactly the body
paragraphs and the table cell paragraphs, replacing — for each key `K` of
the mapping in order — every occurrence of the token `[K]` by the string
conversion of the value of `K`. -/
theorem download_is_template_with_tokens_replaced (template : Docx) (m0 : JObj)
    (fallback : List (String × String)) (nm : NmOutcome) :
    (runExtraction template m0 fallback nm).2 =
      fill_docx template (runExtraction template m0 fallback nm).1 ∧
    (fill_docx template (runExtraction template m0 fallback nm).1).paragraphs =
      template.paragraphs.map (substAll (runExtraction template m0 fallback nm).1) ∧
    (fill_docx template (runExtraction template m0 fallback nm).1).tables =
      template.tables.map (fun t => t.map (fun row => row.map (fun cell =>
        cell.map (substAll (runExtraction template m0 fallback nm).1)))) := by
  have hfun : ∀ mp : JObj, repl mp = substAll mp :=
    fun mp => funext (repl_eq_substAll mp)
  refine ⟨rfl, ?_, ?_⟩ <;> simp only [fill_docx] <;> rw [hfun]

/-! ## The placeholder scanner (towards C8 and C10) -/

theorem takeWhile_mem (p : Char → Bool) :
    ∀ (l : List Char), ∀ c ∈ l.takeWhile p, p c = true := by
  intro l
  induction l with
  | nil => intro c hc; simp [List.takeWhile] at hc
  | cons a rest ih =>
    intro c hc
    by_cases hp : p a
    · rw [List.takeWhile_cons_of_pos hp] at hc
      rcases List.mem_cons.mp hc with h | h
      · subst h; exact hp
      · exact ih c h
    · rw [List.takeWhile_cons_of_neg hp] at hc
      cases hc

theorem takeWhile_all_append (p : Char → Bool) (k : List Char) (y : Char) (ys : List Char)
    (hk : ∀ c ∈ k, p c = true) (hy : p y = false) :
    (k ++ y :: ys).takeWhile p = k ∧ (k ++ y :: ys).dropWhile p = y :: ys := by
  induction k with
  | nil =>
    constructor
    · simp [List.takeWhile_cons, hy]
    · simp [List.dropWhile_cons, hy]
  | cons a k ih =>
    have ha : p a = true := hk a (List.mem_cons_self a k)
    have hk2 : ∀ c ∈ k, p c = true := fun c hc => hk c (List.mem_cons_of_mem a hc)
    obtain ⟨ih1, ih2⟩ := ih hk2
    constructor
    · simp only [List.cons_append, List.takeWhile_cons, ha, if_pos, ih1]
    · simp only [List.cons_append, List.dropWhile_cons, ha, if_pos, ih2]

/-- Soundness of the regex scan: every reported name is a non-empty run of
name characters whose bracketed token occurs in the text. -/
theorem scanNames_sound : ∀ (n : Nat) (l : List Char), l.length ≤ n →
    ∀ k ∈ scanNames l,
      k ≠ [] ∧ (∀ c ∈ k, isWordChar c = true) ∧ ('[' :: (k ++ [']'])) <:+: l := by
  intro n
  induction n with
  | zero =>
    intro l hl k hk
    have hnil : l = [] := List.length_eq_zero.mp (Nat.le_zero.mp hl)
    subst hnil
    rw [scanNames] at hk
    cases hk
  | succ n ih =>
    intro l hl k hk
    cases l with
    | nil => rw [scanNames] at hk; cases hk
    | cons c rest =>
      have hrl : rest.length ≤ n := by
        simp only [List.length_cons] at hl
        omega
      rw [scanNames] at hk
      split at hk
      · rename_i hcond
        obtain ⟨hc, hrun, hhead⟩ := hcond
        obtain ⟨as, hafter⟩ : ∃ as, rest.dropWhile isWordChar = ']' :: as := by
          cases hA : rest.dropWhile isWordChar with
          | nil => rw [hA] at hhead; cases hhead
          | cons a as =>
            rw [hA] at hhead
            injection hhead with ha
            exact ⟨as, by rw [ha]⟩
        rcases List.mem_cons.mp hk with hkr | hkr
        · subst hkr
          refine ⟨hrun, fun ch hch => takeWhile_mem _ rest ch hch, [], (rest.dropWhile isWordChar).tail, ?_⟩
          subst hc
          have hsplit : rest.takeWhile isWordChar ++ rest.dropWhile isWordChar = rest :=
            List.takeWhile_append_dropWhile isWordChar rest
          rw [hafter]
          simp only [List.nil_append, List.cons_append, List.tail_cons]
          rw [show rest.takeWhile isWordChar ++ [']'] ++ as =
              rest.takeWhile isWordChar ++ ']' :: as from by simp]
          rw [← hafter, hsplit]
        · have hlen : (rest.dropWhile isWordChar).tail.length ≤ n := by
            have h1 : (rest.dropWhile isWordChar).length ≤ rest.length :=
              dropWhile_length_le isWordChar rest
            simp only [List.length_tail]
            omega
          have hrec := ih (rest.dropWhile isWordChar).tail hlen k hkr
          refine ⟨hrec.1, hrec.2.1, ?_⟩
          have hsuf : (rest.dropWhile isWordChar).tail <:+ (c :: rest) :=
            ((List.tail_suffix _).trans (List.dropWhile_suffix _)).trans
              (List.suffix_cons c rest)
          exact hrec.2.2.trans hsuf.isInfix
      · have hrec := ih rest hrl k hk
        exact ⟨hrec.1, hrec.2.1, List.infix_cons hrec.2.2⟩

/-- A bracketed token cannot start inside a run of name characters
followed by a closing bracket: when `us ++ [k] ++ v = run ++ "]" ++ as`
with `run` all name characters, the token occurs inside `as`. -/
theorem token_lands_in_tail :
    ∀ (us run : List Char) (as v k : List Char),
      (∀ c ∈ run, isWordChar c = true) →
      us ++ ('[' :: (k ++ [']'])) ++ v = run ++ ']' :: as →
      ('[' :: (k ++ [']'])) <:+: as := by
  intro us
  induction us with
  | nil =>
    intro run as v k hrw heq
    cases run with
    | nil =>
      simp only [List.nil_append, List.cons_append] at heq
      injection heq with hbr
      cases hbr
    | cons r rs =>
      simp only [List.nil_append, List.cons_append] at heq
      injection heq with hbr
      have := hrw r (List.mem_cons_self r rs)
      rw [← hbr] at this
      cases this
  | cons a us ih =>
    intro run as v k hrw heq
    cases run with
    | nil =>
      simp only [List.nil_append, List.cons_append] at heq
      injection heq with _ h2
      exact ⟨us, v, h2⟩
    | cons r rs =>
      simp only [List.cons_append] at heq
      injection heq with _ h2
      refine ih rs as v k (fun c hc => hrw c (List.mem_cons_of_mem r hc)) ?_
      simpa using h2

/-- Completeness of the regex scan: every non-empty run `k` of name
characters whose bracketed token `[k]` occurs in the text is reported. -/
theorem scanNames_complete : ∀ (n : Nat) (l k : List Char), l.length ≤ n →
    ('[' :: (k ++ [']'])) <:+: l → k ≠ [] → (∀ c ∈ k, isWordChar c = true) →
    k ∈ scanNames l := by
  intro n
  induction n with
  | zero =>
    intro l k hl hinf _ _
    have hnil : l = [] := List.length_eq_zero.mp (Nat.le_zero.mp hl)
    subst hnil
    obtain ⟨u, v, huv⟩ := hinf
    simp at huv
  | succ n ih =>
    intro l k hl hinf hk hw
    cases l with
    | nil =>
      obtain ⟨u, v, huv⟩ := hinf
      simp at huv
    | cons c rest =>
      have hrl : rest.length ≤ n := by
        simp only [List.length_cons] at hl
        omega
      rw [scanNames]
      obtain ⟨u, v, huv⟩ := hinf
      cases u with
      | nil =>
        simp only [List.nil_append, List.cons_append] at huv
        injection huv with hc hrest
        have hrest2 : k ++ ']' :: v = rest := by
          rw [← hrest]
          simp
        have htw := takeWhile_all_append isWordChar k ']' v hw (by decide)
        have h1 : rest.takeWhile isWordChar = k := by rw [← hrest2]; exact htw.1
        have h2 : rest.dropWhile isWordChar = ']' :: v := by rw [← hrest2]; exact htw.2
        rw [if_pos ⟨hc.symm, by rw [h1]; exact hk, by rw [h2]; rfl⟩, h1]
        exact List.mem_cons_self k _
      | cons u0 us =>
        simp only [List.cons_append] at huv
        injection huv with hcu hrest
        have hinf2 : ('[' :: (k ++ [']'])) <:+: rest := ⟨us, v, hrest⟩
        by_cases hcond : (c = '[' ∧ rest.takeWhile isWordChar ≠ [] ∧
            (rest.dropWhile isWordChar).head? = some ']')
        · rw [if_pos hcond]
          obtain ⟨hc, hrun, hhead⟩ := hcond
          obtain ⟨as, hafter⟩ : ∃ as, rest.dropWhile isWordChar = ']' :: as := by
            cases hA : rest.dropWhile isWordChar with
            | nil => rw [hA] at hhead; cases hhead
            | cons a as =>
              rw [hA] at hhead
              injection hhead with ha
              exact ⟨as, by rw [ha]⟩
          have hsplit : rest.takeWhile isWordChar ++ ']' :: as = rest := by
            rw [← hafter]
            exact List.takeWhile_append_dropWhile isWordChar rest
          rw [← hsplit] at hrest
          have hinf3 : ('[' :: (k ++ [']'])) <:+: as :=
            token_lands_in_tail us (rest.takeWhile isWordChar) as v k
              (fun ch hch => takeWhile_mem isWordChar rest ch hch) hrest
          have hlen : as.length ≤ n := by
            have h1 : (rest.dropWhile isWordChar).length ≤ rest.length :=
              dropWhile_length_le isWordChar rest
            rw [hafter] at h1
            simp only [List.length_cons] at h1
            omega
          have hrec := ih as k hlen hinf3 hk hw
          rw [hafter]
          simp only [List.tail_cons]
          exact List.mem_cons_of_mem _ hrec
        · rw [if_neg hcond]
          exact ih rest k hrl hinf2 hk hw

/-! ## `sorted(set(...))` -/

theorem insertSorted_mem (x y : String) :
    ∀ l : List String, y ∈ insertSorted x l ↔ y = x ∨ y ∈ l := by
  intro l
  induction l with
  | nil => simp [insertSorted]
  | cons z zs ih =>
    rw [insertSorted]
    split
    · rename_i h1
      subst h1
      simp only [List.mem_cons]
      tauto
    · split
      · simp only [List.mem_cons]
        try tauto
      · simp only [List.mem_cons, ih]
        try tauto

theorem insertSorted_sorted (x : String) :
    ∀ l : List String, l.Sorted (· < ·) → (insertSorted x l).Sorted (· < ·) := by
  intro l
  induction l with
  | nil => intro _; simp [insertSorted]
  | cons z zs ih =>
    intro hs
    rw [List.sorted_cons] at hs
    obtain ⟨hz, hzs⟩ := hs
    rw [insertSorted]
    split
    · exact List.sorted_cons.mpr ⟨hz, hzs⟩
    · rename_i h1
      split
      · rename_i h2
        refine List.sorted_cons.mpr ⟨?_, List.sorted_cons.mpr ⟨hz, hzs⟩⟩
        intro b hb
        rcases List.mem_cons.mp hb with hb | hb
        · subst hb; exact h2
        · exact lt_trans h2 (hz b hb)
      · rename_i h2
        have hzx : z < x := by
          rcases lt_trichotomy x z with h | h | h
          · exact absurd h h2
          · exact absurd h h1
          · exact h
        refine List.sorted_cons.mpr ⟨?_, ih hzs⟩
        intro b hb
        rcases (insertSorted_mem x b zs).mp hb with hb | hb
        · subst hb; exact hzx
        · exact hz b hb

theorem sortDedup_sorted_mem (l : List String) :
    (sortDedup l).Sorted (· < ·) ∧ ∀ y, y ∈ sortDedup l ↔ y ∈ l := by
  suffices h : ∀ acc : List String, acc.Sorted (· < ·) →
      (l.foldl (fun a x => insertSorted x a) acc).Sorted (· < ·) ∧
      ∀ y, y ∈ l.foldl (fun a x => insertSorted x a) acc ↔ y ∈ acc ∨ y ∈ l by
    obtain ⟨h1, h2⟩ := h [] (by simp)
    exact ⟨h1, fun y => by simpa using h2 y⟩
  induction l with
  | nil => intro acc ha; exact ⟨ha, fun y => by simp⟩
  | cons x xs ih =>
    intro acc ha
    obtain ⟨h1, h2⟩ := ih (insertSorted x acc) (insertSorted_sorted x acc ha)
    refine ⟨h1, fun y => ?_⟩
    rw [List.foldl_cons, h2 y, insertSorted_mem]
    simp only [List.mem_cons]
    tauto

/-- The one membership fact shared by the header/footer claims: a bracketed
non-empty name-character run occurring in a scanned paragraph is reported
by `find_placeholders`. -/
theorem mem_find_placeholders_of_token (d : Docx) (k : String) (p : List Char)
    (hp : p ∈ allParagraphs d) (hinf : ('[' :: (k.data ++ [']'])) <:+: p)
    (hne : k.data ≠ []) (hword : ∀ c ∈ k.data, isWordChar c = true) :
    k ∈ find_placeholders d := by
  have hmem := (sortDedup_sorted_mem
    ((allParagraphs d).flatMap (fun q => (scanNames q).map (fun cs => String.mk cs)))).2
  rw [show find_placeholders d = sortDedup
    ((allParagraphs d).flatMap (fun q => (scanNames q).map (fun cs => String.mk cs))) from rfl]
  rw [hmem, List.mem_flatMap]
  refine ⟨p, hp, ?_⟩
  rw [List.mem_map]
  refine ⟨k.data, scanNames_complete p.length p k.data (le_refl _) hinf hne hword, ?_⟩
  cases k with
  | mk data => rfl

/-- C10.  `find_placeholders` returns a duplicate-free, lexicographically
sorted list, containing a name exactly when it is a non-empty run of
characters from `[A-Za-z0-9_]` whose bracketed token occurs in some body,
table-cell, or section header/footer paragraph of the document. -/
theorem find_placeholders_spec (d : Docx) :
    (find_placeholders d).Sorted (· < ·) ∧ (find_placeholders d).Nodup ∧
    ∀ k : String, k ∈ find_placeholders d ↔
      (k.data ≠ [] ∧ (∀ c ∈ k.data, isWordChar c = true) ∧
       ∃ p ∈ allParagraphs d, ('[' :: (k.data ++ [']'])) <:+: p) := by
  obtain ⟨hsort, hmem⟩ := sortDedup_sorted_mem
    ((allParagraphs d).flatMap (fun q => (scanNames q).map (fun cs => String.mk cs)))
  refine ⟨hsort, hsort.nodup, fun k => ?_⟩
  constructor
  · intro h
    rw [show find_placeholders d = sortDedup
      ((allParagraphs d).flatMap (fun q => (scanNames q).map (fun cs => String.mk cs))) from rfl,
      hmem, List.mem_flatMap] at h
    obtain ⟨p, hp, hkp⟩ := h
    rw [List.mem_map] at hkp
    obtain ⟨cs, hcs, hcsk⟩ := hkp
    have hsound := scanNames_sound p.length p (le_refl _) cs hcs
    have hdata : k.data = cs := by rw [← hcsk]
    exact ⟨by rw [hdata]; exact hsound.1, by rw [hdata]; exact hsound.2.1,
      p, hp, by rw [hdata]; exact hsound.2.2⟩
  · rintro ⟨hne, hword, p, hp, hinf⟩
    exact mem_find_placeholders_of_token d k p hp hinf hne hword

/-- The section header and footer paragraph texts of a document. -/
def sectionParagraphs (d : Docx) : List (List Char) :=
  d.sections.flatMap (fun s => s.header ++ s.footer)

/-- C8.  `fill_docx` never touches section headers or footers: the sections
of the output document are those of the input, so a placeholder token that
occurs in a header or footer paragraph is still present, unreplaced, in
that paragraph of the output — even though `find_placeholders` does detect
and report placeholders occurring there. -/
theorem fill_docx_leaves_sections_untouched (d : Docx) (mapping : JObj)
    (k : String) (p : List Char) (hp : p ∈ sectionParagraphs d)
    (htok : ('[' :: (k.data ++ [']'])) <:+: p)
    (hne : k.data ≠ []) (hword : ∀ c ∈ k.data, isWordChar c = true) :
    (fill_docx d mapping).sections = d.sections ∧
    p ∈ sectionParagraphs (fill_docx d mapping) ∧
    ('[' :: (k.data ++ [']'])) <:+: p ∧
    k ∈ find_placeholders d := by
  refine ⟨rfl, hp, htok, ?_⟩
  have hp2 : p ∈ d.sections.flatMap (fun s => s.header ++ s.footer) := hp
  have hpall : p ∈ allParagraphs d := List.mem_append_right _ hp2
  exact mem_find_placeholders_of_token d k p hpall htok hne hword

/-- Witness for `fill_docx_leaves_sections_untouched`. -/
theorem fill_docx_leaves_sections_untouched_witness :
    (fill_docx ⟨[], [], [⟨["[H]".data], []⟩]⟩ []).sections = [⟨["[H]".data], []⟩] ∧
    "[H]".data ∈ sectionParagraphs (fill_docx ⟨[], [], [⟨["[H]".data], []⟩]⟩ []) ∧
    ('[' :: ("H".data ++ [']'])) <:+: "[H]".data ∧
    "H" ∈ find_placeholders ⟨[], [], [⟨["[H]".data], []⟩]⟩ :=
  fill_docx_leaves_sections_untouched ⟨[], [], [⟨["[H]".data], []⟩]⟩ [] "H" "[H]".data
    (by simp [sectionParagraphs]) ⟨[], [], rfl⟩ (by decide) (by decide)

/-! ## `extract_first_json_block` characterisation (C9) -/

/-- Contribution of one character to the brace balance. -/
def braceDelta (c : Char) : Int :=
  if c = '{' then 1 else if c = '}' then -1 else 0

theorem braceBal_cons (c : Char) (l : List Char) :
    braceBal (c :: l) = braceDelta c + braceBal l := by
  unfold braceBal braceDelta
  rw [List.countP_cons, List.countP_cons]
  by_cases h1 : c = '{'
  · subst h1
    simp only [beq_self_eq_true, if_true, if_pos rfl]
    have : (('{' == '}') = false) := by decide
    rw [this]
    push_cast
    ring
  · have e1 : ((c == '{') = false) := by simp [h1]
    rw [e1, if_neg h1]
    by_cases h2 : c = '}'
    · subst h2
      simp only [beq_self_eq_true, if_true, if_pos rfl]
      push_cast
      ring
    · have e2 : ((c == '}') = false) := by simp [h2]
      rw [e2, if_neg h2]
      push_cast
      ring

theorem braceLoopLen_cons (c : Char) (rest : List Char) (d : Int) :
    braceLoopLen (c :: rest) d =
      if c = '}' ∧ d + braceDelta c = 0 then some 0
      else (braceLoopLen rest (d + braceDelta c)).map Nat.succ := by
  rw [braceLoopLen]
  unfold braceDelta
  by_cases h1 : c = '{'
  · subst h1
    have hne : ¬('{' = '}') := by decide
    simp [hne, add_comm]
  · by_cases h2 : c = '}'
    · subst h2
      have hne : ¬('}' = '{') := by decide
      simp [hne, sub_eq_add_neg]
    · simp [h1, h2]

/-- If, starting from positive depth `d`, position `n` is the first one at
which the running balance returns to zero, the loop returns exactly `n`. -/
theorem braceLoopLen_found : ∀ (l : List Char) (d : Int), 1 ≤ d →
    ∀ n : Nat, (∀ j < n, d + braceBal (l.take (j+1)) ≠ 0) →
      d + braceBal (l.take (n+1)) = 0 → braceLoopLen l d = some n := by
  intro l
  induction l with
  | nil =>
    intro d hd n _ heq
    rw [List.take_nil] at heq
    unfold braceBal at heq
    simp at heq
    omega
  | cons c rest ih =>
    intro d hd n hmin heq
    rw [braceLoopLen_cons]
    cases n with
    | zero =>
      rw [List.take_succ_cons, List.take_zero, braceBal_cons] at heq
      have hbal : braceBal [] = 0 := rfl
      rw [hbal, add_zero] at heq
      have hc : c = '}' := by
        unfold braceDelta at heq
        by_cases h1 : c = '{'
        · rw [if_pos h1] at heq; omega
        · by_cases h2 : c = '}'
          · exact h2
          · rw [if_neg h1, if_neg h2] at heq; omega
      rw [if_pos ⟨hc, heq⟩]
    | succ n =>
      have h0 := hmin 0 (Nat.succ_pos n)
      rw [List.take_succ_cons, List.take_zero, braceBal_cons] at h0
      have hbal : braceBal [] = 0 := rfl
      rw [hbal, add_zero] at h0
      rw [if_neg (fun hand => h0 hand.2)]
      have hd2 : 1 ≤ d + braceDelta c := by
        unfold braceDelta at h0 ⊢
        by_cases h1 : c = '{'
        · rw [if_pos h1]; omega
        · by_cases h2 : c = '}'
          · rw [if_pos h2] at h0 ⊢
            rw [if_neg h1] at h0 ⊢
            omega
          · rw [if_neg h1, if_neg h2] at h0 ⊢
            omega
      have hmin2 : ∀ j < n, (d + braceDelta c) + braceBal (rest.take (j+1)) ≠ 0 := by
        intro j hj
        have := hmin (j+1) (by omega)
        rw [List.take_succ_cons, braceBal_cons] at this
        intro hcontra
        exact this (by omega)
      have heq2 : (d + braceDelta c) + braceBal (rest.take (n+1)) = 0 := by
        rw [List.take_succ_cons, braceBal_cons] at heq
        omega
      rw [ih (d + braceDelta c) hd2 n hmin2 heq2]
      rfl

/-- If, starting from positive depth `d`, the running balance never
returns to zero, the loop falls off the end. -/
theorem braceLoopLen_none : ∀ (l : List Char) (d : Int), 1 ≤ d →
    (∀ n : Nat, d + braceBal (l.take (n+1)) ≠ 0) → braceLoopLen l d = none := by
  intro l
  induction l with
  | nil => intro d _ _; rfl
  | cons c rest ih =>
    intro d hd hmin
    rw [braceLoopLen_cons]
    have h0 := hmin 0
    rw [List.take_succ_cons, List.take_zero, braceBal_cons] at h0
    have hbal : braceBal [] = 0 := rfl
    rw [hbal, add_zero] at h0
    rw [if_neg (fun hand => h0 hand.2)]
    have hd2 : 1 ≤ d + braceDelta c := by
      unfold braceDelta at h0 ⊢
      by_cases h1 : c = '{'
      · rw [if_pos h1]; omega
      · by_cases h2 : c = '}'
        · rw [if_pos h2] at h0 ⊢
          rw [if_neg h1] at h0 ⊢
          omega
        · rw [if_neg h1, if_neg h2] at h0 ⊢
          omega
    have hmin2 : ∀ n : Nat, (d + braceDelta c) + braceBal (rest.take (n+1)) ≠ 0 := by
      intro n
      have := hmin (n+1)
      rw [List.take_succ_cons, braceBal_cons] at this
      intro hcontra
      exact this (by omega)
    rw [ih (d + braceDelta c) hd2 hmin2]
    rfl

theorem extract_first_json_block_eq (s : List Char) :
    extract_first_json_block s =
      match braceLoopLen (dropTillBrace s) 0 with
      | some i => (dropTillBrace s).take (i + 1)
      | none => [] := rfl

theorem dropTillBrace_eq_nil : ∀ l : List Char, '{' ∉ l → dropTillBrace l = [] := by
  intro l
  induction l with
  | nil => intro _; rfl
  | cons c rest ih =>
    intro h
    rw [dropTillBrace,
      if_neg (fun hc => h (by rw [← hc]; exact List.mem_cons_self c rest))]
    exact ih (fun hm => h (List.mem_cons_of_mem c hm))

theorem dropTillBrace_decomp : ∀ (pre rest : List Char), '{' ∉ pre →
    dropTillBrace (pre ++ '{' :: rest) = '{' :: rest := by
  intro pre
  induction pre with
  | nil => intro rest _; rw [List.nil_append, dropTillBrace, if_pos rfl]
  | cons c pre ih =>
    intro rest h
    rw [List.cons_append, dropTillBrace,
      if_neg (fun hc => h (by rw [← hc]; exact List.mem_cons_self c pre))]
    exact ih rest (fun hm => h (List.mem_cons_of_mem c hm))

/-- C9.  `extract_first_json_block` returns the slice of the input from its
first opening brace through the brace at which the running count of `\x7b`
minus `\x7d` first returns to zero, and returns the empty string when there
is no opening brace or the count never returns to zero before the end. -/
theorem extract_first_json_block_spec (s : List Char) :
    ('{' ∉ s → extract_first_json_block s = []) ∧
    (∀ pre rest, s = pre ++ '{' :: rest → '{' ∉ pre →
      (∀ n : Nat, (∀ j < n, braceBal (('{' :: rest).take (j+1)) ≠ 0) →
        braceBal (('{' :: rest).take (n+1)) = 0 →
        extract_first_json_block s = ('{' :: rest).take (n+1)) ∧
      ((∀ n : Nat, braceBal (('{' :: rest).take (n+1)) ≠ 0) →
        extract_first_json_block s = [])) := by
  have hdelta : braceDelta '{' = 1 := by decide
  constructor
  · intro h
    rw [extract_first_json_block_eq, dropTillBrace_eq_nil s h]
    rfl
  · intro pre rest hdecomp hpre
    subst hdecomp
    have hshift : ∀ m : Nat, braceBal (('{' :: rest).take (m+1)) =
        1 + braceBal (rest.take m) := by
      intro m
      rw [List.take_succ_cons, braceBal_cons, hdelta]
    constructor
    · intro n hmin heq
      cases n with
      | zero =>
        exfalso
        rw [hshift 0] at heq
        have : braceBal (rest.take 0) = 0 := by rw [List.take_zero]; rfl
        omega
      | succ n =>
        have hBL : braceLoopLen ('{' :: rest) 0 = some (n+1) := by
          rw [braceLoopLen_cons, if_neg (fun hand => by cases hand.1), hdelta]
          have hz : (0 : Int) + 1 = 1 := by norm_num
          rw [hz]
          have hmin2 : ∀ j < n, (1 : Int) + braceBal (rest.take (j+1)) ≠ 0 := by
            intro j hj
            have := hmin (j+1) (by omega)
            rw [hshift (j+1)] at this
            exact this
          have heq2 : (1 : Int) + braceBal (rest.take (n+1)) = 0 := by
            rw [hshift (n+1)] at heq
            exact heq
          rw [braceLoopLen_found rest 1 (le_refl 1) n hmin2 heq2]
          rfl
        rw [extract_first_json_block_eq, dropTillBrace_decomp pre rest hpre, hBL]
    · intro hmin
      have hBL : braceLoopLen ('{' :: rest) 0 = none := by
        rw [braceLoopLen_cons, if_neg (fun hand => by cases hand.1), hdelta]
        have hz : (0 : Int) + 1 = 1 := by norm_num
        rw [hz]
        have hmin2 : ∀ n : Nat, (1 : Int) + braceBal (rest.take (n+1)) ≠ 0 := by
          intro n
          have := hmin (n+1)
          rw [hshift (n+1)] at this
          exact this
        rw [braceLoopLen_none rest 1 (le_refl 1) hmin2]
        rfl
      rw [extract_first_json_block_eq, dropTillBrace_decomp pre rest hpre, hBL]

/-- Witness for `extract_first_json_block_spec`. -/
theorem extract_first_json_block_spec_witness :
    extract_first_json_block ['x', '{', 'a', '}'] = ['{', 'a', '}'] :=
  ((extract_first_json_block_spec ['x', '{', 'a', '}']).2 ['x'] ['a', '}'] rfl
    (by decide)).1 2 (by decide) (by decide)

end GLR
